import Mathlib

/-!
Verification of the optibench kernel corpus: a shallow embedding, in Lean 4,
of the baseline and optimized C kernels (substring search, sort, matrix
multiply, primality counting, fibonacci, checksum reductions, the LCG input
generator), together with proofs and refutations of the specification claims.

Conventions of the embedding:
- C machine integers are modelled as Nat / Int with explicit `% 2^32` where
  the 32-bit wraparound matters (the LCG); C `double` data is modelled over
  the exact rationals, following the contracts' "exact arithmetic" reading.
- C while-loops whose counters move by a data-dependent stride are modelled
  with an explicit fuel argument; the fuel-exhausted branch returns the same
  value as the loop-exit branch, and every theorem instantiates the fuel
  above the loop's iteration bound, so the embedded loop computes exactly
  what the C loop computes.
- Out-of-range C array accesses (a store through a possibly-null malloc
  result, a frequency-table index beyond the table) are modelled explicitly
  as error outcomes of Option / Except valued functions.
-/

namespace OptiBench

/-! ### Fibonacci kernel (fibonacci_baseline.c / fibonacci_optimized.c) -/

/-- Embedding of the baseline `fibonacci` (fibonacci_baseline.c lines 3-6):
naive double recursion, `if (n <= 1) return n`. -/
def fibonacci_baseline : Nat → Nat
  | 0 => 0
  | 1 => 1
  | n + 2 => fibonacci_baseline (n + 1) + fibonacci_baseline n

/-- One iteration of the optimized fibonacci loop body
(`c = a + b; a = b; b = c;`), on the state pair (a, b). -/
def fibStep (p : Nat × Nat) (_i : Nat) : Nat × Nat := (p.2, p.1 + p.2)

/-- Embedding of the optimized `fibonacci` (fibonacci_optimized.c lines 3-12):
`if (n <= 1) return n;` then the rolling two-variable loop
`for (i = 2; i <= n; i++)` starting from a = 0, b = 1, returning b. -/
def fibonacci_optimized (n : Nat) : Nat :=
  if n ≤ 1 then n else ((List.range' 2 (n - 1)).foldl fibStep (0, 1)).2

/-! ### Deterministic input generator (bubble-sort_baseline.c lines 21-25)

The LCG recurrence `seed = seed * 1103515245 + 12345` over 32-bit unsigned
arithmetic, each element taken as `(seed >> 16) & 0x7fff` and stored into a
C `int` array. -/

/-- One step of the 32-bit LCG: `seed * 1103515245 + 12345` mod 2^32. -/
def lcgStep (seed : Nat) : Nat := (seed * 1103515245 + 12345) % 4294967296

/-- The generator loop of the sort kernel: n elements, each produced by
stepping the seed and taking `(seed >> 16) & 0x7fff` as an int. -/
def lcgGen : Nat → Nat → List Int
  | 0, _ => []
  | n + 1, seed =>
    let s := lcgStep seed
    (((s >>> 16) &&& 32767 : Nat) : Int) :: lcgGen n s

/-- The concrete benchmark input of the sort kernel: N = 10000 values from
seed 12345 (bubble-sort_baseline.c lines 21-25; the unrolled generator of
bubble-sort_optimized.c lines 47-68 performs the same sequential recurrence
and per-element extraction, four elements per iteration). -/
def sortInputBench : List Int := lcgGen 10000 12345

/-! ### Substring search kernel
(string-search_baseline.c / string-search_optimized.c)

Text and pattern are byte strings, modelled as lists of byte values. -/

/-- Forward prefix comparison at position i: the baseline's inner loop
`for (j = 0; j < m; j++) if (text[i+j] != pattern[j]) break;` succeeds
(`j == m`) exactly when all m leading bytes of the window agree. -/
def fwdCheck (t p : List Nat) (i : Nat) : Bool :=
  (List.range p.length).all fun j => t.getD (i + j) 0 == p.getD j 0

/-- Embedding of `naive_search` (string-search_baseline.c lines 8-22):
`for (i = 0; i <= n - m; i++)` counting windows that fully match. The
comparison `i <= n - m` is over C ints, so when n < m the loop body never
runs; when m = 0 the loop runs for i = 0..n and every window matches. -/
def naive_search (t p : List Nat) : Nat :=
  if t.length < p.length then 0
  else (List.range (t.length - p.length + 1)).countP fun i => fwdCheck t p i

/-- The bad-character shift table of `optimized_search`
(string-search_optimized.c lines 17-23): every byte starts at m, and
`bad_char[pattern[i]] = m - 1 - i` for i = 0..m-2, later writes winning. -/
def buildBC (p : List Nat) : Nat → Nat :=
  (List.range (p.length - 1)).foldl
    (fun tbl idx => fun c => if c = p.getD idx 0 then p.length - 1 - idx else tbl c)
    (fun _ => p.length)

/-- Descending comparison loop of the scalar Horspool branch
(string-search_optimized.c lines 61-64): compare index j-1, then j-2, ...,
stopping at the first mismatch; `bwdGo t p i k` is the check for pattern
indices k-1 down to 0. -/
def bwdGo (t p : List Nat) (i : Nat) : Nat → Bool
  | 0 => true
  | j + 1 => (p.getD j 0 == t.getD (i + j) 0) && bwdGo t p i j

/-- Full-window check of the scalar branch: `int j = m - 1; while (j >= 0 &&
pattern[j] == text[i + j]) j--;` succeeds when j reaches -1. -/
def bwdCheck (t p : List Nat) (i : Nat) : Bool := bwdGo t p i p.length

/-- Window check of the SIMD branch (string-search_optimized.c lines 42-49):
16 bytes are loaded from text+i, compared bytewise against the pattern
register, and the movemask is tested on its low m bits; that test holds
exactly when the first m bytes of the window equal the pattern, which is how
it is modelled here. -/
def simdCheck (t p : List Nat) (i : Nat) : Bool :=
  (List.range p.length).all fun j => t.getD (i + j) 0 == p.getD j 0

/-- The Horspool scan loop `while (i <= n - m)` shared by both branches of
`optimized_search` (string-search_optimized.c lines 40-57 and 60-72): on a
full match count and advance by 1, otherwise advance by the bad-character
shift of the window's last text byte. The check function is the branch's
window comparison. The fuel argument bounds the number of iterations; fuel
exhaustion returns the loop-exit value 0 and is never reached at the fuel
the entry point supplies, because every shift is at least 1. -/
def hLoop (t p : List Nat) (bc : Nat → Nat) (check : Nat → Bool) :
    Nat → Nat → Nat
  | 0, _ => 0
  | fuel + 1, i =>
    if i ≤ t.length - p.length then
      if check i then 1 + hLoop t p bc check fuel (i + 1)
      else hLoop t p bc check fuel (i + bc (t.getD (i + p.length - 1) 0))
    else 0

/-- Prefix of the table-building loop of `optimized_search` after k
iterations: the state of `bad_char` once indices 0..k-1 of the pattern have
been processed. `buildBC p` is `bcFold p (p.length - 1)`. -/
def bcFold (p : List Nat) (k : Nat) : Nat → Nat :=
  (List.range k).foldl
    (fun tbl idx => fun c => if c = p.getD idx 0 then p.length - 1 - idx else tbl c)
    (fun _ => p.length)

/-- Number of matching windows at positions q, q+1, ..., n - m: the count
the naive scan accumulates from position q onward. -/
def cnt (t p : List Nat) (q : Nat) : Nat :=
  (List.range' q (t.length - p.length + 1 - q)).countP fun i => fwdCheck t p i

/-- Embedding of `optimized_search` (string-search_optimized.c lines 10-76):
the up-front guard `if (m == 0 || n < m) return 0;`, the bad-character
table, and the scan loop, with the SIMD window check when m <= 16 and the
scalar descending check otherwise. -/
def optimized_search (t p : List Nat) : Nat :=
  if p.length = 0 ∨ t.length < p.length then 0
  else if p.length ≤ 16 then
    hLoop t p (buildBC p) (fun i => simdCheck t p i) (t.length + 1) 0
  else
    hLoop t p (buildBC p) (fun i => bwdCheck t p i) (t.length + 1) 0

/-! ### Sort kernel (bubble-sort_baseline.c / bubble-sort_optimized.c) -/

/-- One inner pass of `bubble_sort` limited to the first k adjacent pairs:
`for (j = 0; j < k; j++) if (arr[j] > arr[j+1]) swap(arr[j], arr[j+1]);`. -/
def passUpTo : Nat → List Int → List Int
  | 0, l => l
  | _, [] => []
  | _, [a] => [a]
  | k + 1, a :: b :: rest =>
    if b < a then b :: passUpTo k (a :: rest) else a :: passUpTo k (b :: rest)

/-- The outer loop of `bubble_sort` counted down: `sortGo k` performs the
passes with pair bounds k, k-1, ..., 1, matching the C outer loop
`for (i = 0; i < n - 1; i++)` whose pass i has bound n - i - 1. -/
def sortGo : Nat → List Int → List Int
  | 0, l => l
  | k + 1, l => sortGo k (passUpTo (k + 1) l)

/-- Embedding of `bubble_sort` (bubble-sort_baseline.c lines 6-16). -/
def bubble_sort (l : List Int) : List Int := sortGo (l.length - 1) l

/-- Embedding of `optimized_sort` (bubble-sort_optimized.c lines 10-41): a
32768-entry frequency table is tallied in one pass over the input, then the
array is reconstructed by emitting each value `val = 0..32767` exactly
`count[val]` times, in ascending value order. The emission loops (a while
for counts >= 8 writing eight copies, then a while writing single copies)
produce exactly `count[val]` consecutive copies of val, modelled as a
replicate of length `count[val]`. -/
def optimized_sort (l : List Int) : List Int :=
  ((List.range 32768).map fun v => List.replicate (l.count ((v : Nat) : Int)) ((v : Nat) : Int)).flatten

/-- Domain-violation detector for the tally loop of `optimized_sort`
(bubble-sort_optimized.c lines 16-18): the access `count[arr[i]]++` is out
of the bounds of the 32768-entry table exactly when some input value is
negative or at least 32768. -/
def tallyAccessOOB (l : List Int) : Bool :=
  l.any fun x => decide (x < 0) || decide (32768 ≤ x)

/-- Checked run of `optimized_sort`: the C function performs the tally with
no domain test, so on an input with a value outside [0, 32768) its first
action on that value is an out-of-bounds table write (undefined behavior),
modelled as `none`; on in-range inputs it computes the counting sort. -/
def optimized_sort_run (l : List Int) : Option (List Int) :=
  if tallyAccessOOB l then none else some (optimized_sort l)

/-! ### Unrolled checksum reductions (claim C7)

The sort kernel's checksum (bubble-sort_optimized.c lines 74-91) and the
matrix kernel's checksum (matrix-multiply_optimized.c lines 62-78). -/

/-- The unrolled sort-kernel checksum loop (bubble-sort_optimized.c lines
77-90): i advances by 4; a full block accumulates into sum1..sum4; a partial
block (when fewer than 4 elements remain) accumulates into `checksum`; after
the loop the code assigns `checksum = sum1 + sum2 + sum3 + sum4`, so the
value returned is the four lane sums only, discarding the cs accumulator.
Fuel bounds the iterations and is supplied above n/4. -/
def scLoop (arr : List Int) : Nat → Nat → Int → Int → Int → Int → Int → Int
  | 0, _, _, s1, s2, s3, s4 => s1 + s2 + s3 + s4
  | fuel + 1, i, cs, s1, s2, s3, s4 =>
    if i < arr.length then
      if i + 3 < arr.length then
        scLoop arr fuel (i + 4) cs
          (s1 + arr.getD i 0 * ((i : Int) + 1))
          (s2 + arr.getD (i + 1) 0 * ((i : Int) + 2))
          (s3 + arr.getD (i + 2) 0 * ((i : Int) + 3))
          (s4 + arr.getD (i + 3) 0 * ((i : Int) + 4))
      else
        scLoop arr fuel (i + 4)
          ((List.range' i (min arr.length (i + 4) - i)).foldl
            (fun c j => c + arr.getD j 0 * ((j : Int) + 1)) cs)
          s1 s2 s3 s4
    else s1 + s2 + s3 + s4

/-- The optimized sort kernel's final checksum over an array of length N. -/
def sortChecksumUnrolled (arr : List Int) : Int :=
  scLoop arr (arr.length + 4) 0 0 0 0 0 0

/-- The plain sequential reduction `checksum += arr[i] * (i+1)` of
bubble-sort_baseline.c lines 29-32. -/
def sortChecksumSeq (arr : List Int) : Int :=
  (List.range arr.length).foldl (fun c i => c + arr.getD i 0 * ((i : Int) + 1)) 0

/-- The vector phase of the matrix kernel's checksum (matrix-multiply_optimized.c
lines 65-68): four lane accumulators gather C[i..i+3] while `i <= N*N - 4`
(over ints, hence `i + 4 <= length` here); the horizontal sum of the lanes
and the exit index are returned. Doubles are modelled as exact rationals. -/
def mcVec (c : List ℚ) : Nat → Nat → ℚ → ℚ → ℚ → ℚ → ℚ × Nat
  | 0, i, l0, l1, l2, l3 => (l0 + l1 + l2 + l3, i)
  | fuel + 1, i, l0, l1, l2, l3 =>
    if i + 4 ≤ c.length then
      mcVec c fuel (i + 4) (l0 + c.getD i 0) (l1 + c.getD (i + 1) 0)
        (l2 + c.getD (i + 2) 0) (l3 + c.getD (i + 3) 0)
    else (l0 + l1 + l2 + l3, i)

/-- The matrix kernel's full unrolled checksum (matrix-multiply_optimized.c
lines 62-78): the horizontal lane sum, then the scalar remainder loop
`for (; i < N*N; i++) checksum += C[i];` added on top. -/
def matChecksumUnrolled (c : List ℚ) : ℚ :=
  let vr := mcVec c (c.length + 4) 0 0 0 0 0
  (List.range' vr.2 (c.length - vr.2)).foldl (fun s j => s + c.getD j 0) vr.1

/-- The plain sequential reduction of the matrix checksum
(matrix-multiply_baseline.c lines 30-33). -/
def matChecksumSeq (c : List ℚ) : ℚ :=
  (List.range c.length).foldl (fun s i => s + c.getD i 0) 0

/-! ### Primality kernel (prime-sieve_baseline.c / prime-sieve_optimized.c) -/

/-- Embedding of the baseline `is_prime` (prime-sieve_baseline.c lines 6-12):
`if (n < 2) return false;` then trial division `for (i = 2; i < n; i++)`. -/
def is_prime (n : Nat) : Bool :=
  if n < 2 then false
  else (List.range' 2 (n - 2)).all fun i => n % i != 0

/-- Embedding of `is_prime_optimized` (prime-sieve_optimized.c lines 8-17):
special cases for n < 2, n = 2 and even n, then odd trial divisors
`for (i = 3; i <= limit; i += 2)` where `limit = (int)sqrt(n)`. The C
truncated double square root equals the integer square root for every int
input (the double result of sqrt on an exactly-represented int below 2^52
never rounds across an integer), so the limit is modelled as `Nat.sqrt n`;
the loop visits the odd values 3, 5, ..., up to the limit, of which there
are (limit - 1) / 2. -/
def is_prime_optimized (n : Nat) : Bool :=
  if n < 2 then false
  else if n = 2 then true
  else if n % 2 = 0 then false
  else (List.range' 3 ((Nat.sqrt n - 1) / 2) 2).all fun i => n % i != 0

/-- The shared accumulator step of both prime-counting mains: on a prime i,
`count++; sum += i;`. The primality test is the variant's own. -/
def primeStep (test : Nat → Bool) (acc : Nat × Nat) (i : Nat) : Nat × Nat :=
  if test i then (acc.1 + 1, acc.2 + i) else acc

/-- The baseline main loop (prime-sieve_baseline.c lines 18-23):
`for (i = 2; i < 100000; i++)` accumulating (count, sum) with `is_prime`. -/
def prime_baseline_main : Nat × Nat :=
  (List.range' 2 99998).foldl (primeStep is_prime) (0, 0)

/-- The optimized main loop (prime-sieve_optimized.c lines 28-39):
`for (i = 3; i < 100000; i += 2)` whose body tests i, then tests
`next = i + 2` guarded by `next < 100000`, then adds 2 more to i, so the
counter advances by 4 per iteration. Fuel bounds iterations; exhaustion
returns the loop-exit value and is never reached at the supplied fuel. -/
def primeOptLoop : Nat → Nat → Nat × Nat → Nat × Nat
  | 0, _, acc => acc
  | fuel + 1, i, acc =>
    if i < 100000 then
      let acc1 := primeStep is_prime_optimized acc i
      let acc2 :=
        if i + 2 < 100000 then primeStep is_prime_optimized acc1 (i + 2) else acc1
      primeOptLoop fuel (i + 4) acc2
    else acc

/-- The optimized main's (count, sum) (prime-sieve_optimized.c lines 19-41):
2 is handled separately (`count = 1; sum = 2;`), then the odd loop runs. -/
def prime_optimized_main : Nat × Nat := primeOptLoop 25001 3 (1, 2)

/-! ### Dense matrix multiply kernel
(olmo matrix-multiply_baseline.c / mimo matrix-multiply_optimized.c)

Flat row-major buffers of doubles are modelled as functions Nat → ℚ over
exact arithmetic, per the contract's exact reading. -/

/-- Embedding of the baseline `matrix_multiply`
(olmo-3.1-32b-think-free/matrix-multiply_baseline.c lines 6-16): for each
output cell, a scalar accumulator summed over k in increasing order. -/
def matrix_multiply_baseline (n : Nat) (a b : Nat → ℚ) (i j : Nat) : ℚ :=
  (List.range n).foldl (fun s k => s + a (i * n + k) * b (k * n + j)) 0

/-- Pointwise accumulate-store into a flat buffer: the value at index idx
gains v, all other cells are unchanged (`c[idx] += v`). -/
def accum (c : Nat → ℚ) (idx : Nat) (v : ℚ) : Nat → ℚ :=
  fun x => if x = idx then c idx + v else c x

/-- The AVX inner loop of the optimized multiply (matrix-multiply_optimized.c
lines 27-34): while `j <= N - 4` (ints; `j + 4 <= n` here), the four cells
c[ci+j .. ci+j+3] each gain `av * b (bi+j+lane)` — the vector load, multiply,
add, store on four distinct cells, modelled as four pointwise accumulates —
and j advances by 4. Fuel bounds iterations as usual. -/
def mmVecLoop (av : ℚ) (b : Nat → ℚ) (bi ci n : Nat) :
    Nat → Nat → (Nat → ℚ) → (Nat → ℚ) × Nat
  | 0, j, c => (c, j)
  | fuel + 1, j, c =>
    if j + 4 ≤ n then
      mmVecLoop av b bi ci n fuel (j + 4)
        (accum (accum (accum (accum c
          (ci + j) (av * b (bi + j)))
          (ci + j + 1) (av * b (bi + j + 1)))
          (ci + j + 2) (av * b (bi + j + 2)))
          (ci + j + 3) (av * b (bi + j + 3)))
    else (c, j)

/-- The scalar remainder loop (matrix-multiply_optimized.c lines 37-39):
`for (; j < n; j++) c_ptr[j] += a_val * b_ptr[j];`. -/
def mmRemLoop (av : ℚ) (b : Nat → ℚ) (bi ci n : Nat) :
    Nat → Nat → (Nat → ℚ) → (Nat → ℚ)
  | 0, _, c => c
  | fuel + 1, j, c =>
    if j < n then
      mmRemLoop av b bi ci n fuel (j + 1) (accum c (ci + j) (av * b (bi + j)))
    else c

/-- The body for one (i, k) iteration of the optimized multiply: a_val is
A[i*n+k], the row pointers are b_ptr = &B[k*n] and c_ptr = &C[i*n], and the
vectorized loop over j is followed by the scalar remainder loop. -/
def mmInner (a b : Nat → ℚ) (n i k : Nat) (c : Nat → ℚ) : Nat → ℚ :=
  let vr := mmVecLoop (a (i * n + k)) b (k * n) (i * n) n n 0 c
  mmRemLoop (a (i * n + k)) b (k * n) (i * n) n n vr.2 vr.1

/-- Embedding of the optimized `matrix_multiply`
(mimo-v2-flash-free/matrix-multiply_optimized.c lines 7-42) on a buffer with
arbitrary initial contents c0: the init loop zeroes C[0 .. n*n-1], then the
i-k-j loops accumulate. The result is the final flat buffer. -/
def matrix_multiply_optimized (n : Nat) (a b : Nat → ℚ) (c0 : Nat → ℚ) : Nat → ℚ :=
  (List.range n).foldl
    (fun c i => (List.range n).foldl (fun c k => mmInner a b n i k c) c)
    (fun x => if x < n * n then 0 else c0 x)

/-! ### Allocation-failure model (claim C8)

The bubble-sort baseline main (bubble-sort_baseline.c lines 18-38) calls
malloc and, without any null check, immediately stores into the buffer.
The buffer is an Option: `none` is a failed allocation; a store through
`none` is the undefined-behavior event of writing through a null pointer. -/

/-- Marker for the undefined-behavior outcome of touching a null buffer. -/
inductive UB where
  | nullDeref
deriving DecidableEq

/-- Store of v at index i of a possibly-null buffer: on a null buffer the
store is a null-pointer write, the UB outcome. -/
def bufStore (b : Option (List Int)) (i : Nat) (v : Int) : Except UB (List Int) :=
  match b with
  | none => Except.error UB.nullDeref
  | some l => Except.ok (l.set i v)

/-- The fill loop of the bubble-sort baseline main (bubble-sort_baseline.c
lines 21-25): each iteration steps the LCG seed and stores the derived value
at index i. The first store through a null buffer surfaces the UB outcome
and stops the run, matching the C program faulting at its first `arr[i] =`.
The fuel-exhausted case returns the buffer as the loop's result (for the
supplied fuel 10000 and a non-null buffer this is the filled buffer; the
null zero-fuel corner is never reached from the entry point). -/
def bsFill : Nat → Nat → Nat → Option (List Int) → Except UB (List Int)
  | 0, _, _, b =>
    match b with
    | some l => Except.ok l
    | none => Except.error UB.nullDeref
  | fuel + 1, i, seed, b =>
    let s := lcgStep seed
    match bufStore b i (((s >>> 16) &&& 32767 : Nat) : Int) with
    | Except.error e => Except.error e
    | Except.ok l => bsFill fuel (i + 1) s (some l)

/-- The bubble-sort baseline entry point as a function of the malloc result
(bubble-sort_baseline.c lines 18-38): fill the N = 10000 buffer from seed
12345, bubble-sort it, and return the positional checksum. There is no null
check between the malloc and the first store. -/
def bsMain (alloc : Option (List Int)) : Except UB Int :=
  (bsFill 10000 0 12345 alloc).map fun l => sortChecksumSeq (bubble_sort l)

/-! ## Theorems -/

/-! ### Claim C6: fibonacci values and running sum -/

/-- Claim C6 (corrected). The fibonacci function, in both the recursive
baseline and the iterative optimized version, returns 0,1,1,2,3,5,8,13,21,
34,55 for n = 0..10, and the running sum of fibonacci(i) over i = 0..10
equals 143. (The claim's running sum over i = 0..9 is 88, see the
counterexample; 143 is reached one term later.) -/
theorem C6_fibonacci_values_and_sum :
    (List.range 11).map fibonacci_baseline = [0, 1, 1, 2, 3, 5, 8, 13, 21, 34, 55] ∧
    (List.range 11).map fibonacci_optimized = [0, 1, 1, 2, 3, 5, 8, 13, 21, 34, 55] ∧
    (List.range 11).foldl (fun s i => s + fibonacci_baseline i) 0 = 143 ∧
    (List.range 11).foldl (fun s i => s + fibonacci_optimized i) 0 = 143 := by
  refine ⟨?_, ?_, ?_, ?_⟩ <;> decide

/-- Counterexample to claim C6 as stated: the running sum of fibonacci(i)
over i = 0..9 is 88 (for both variants), not 143. -/
theorem C6_sum_over_first_ten_is_88 :
    (List.range 10).foldl (fun s i => s + fibonacci_baseline i) 0 = 88 ∧
    (List.range 10).foldl (fun s i => s + fibonacci_optimized i) 0 = 88 ∧
    (List.range 10).foldl (fun s i => s + fibonacci_baseline i) 0 ≠ 143 := by
  refine ⟨?_, ?_, ?_⟩ <;> decide

/-! ### Claim C9: optimized_search up-front guard -/

/-- Claim C9 (confirmed). For every text of length n and pattern of length
m, if m = 0 or n < m then optimized_search returns 0: the empty pattern and
an over-long pattern are rejected up front with a zero count. -/
theorem C9_optimized_search_guard (t p : List Nat)
    (h : p.length = 0 ∨ t.length < p.length) : optimized_search t p = 0 := by
  unfold optimized_search
  rw [if_pos h]

/-- Witness for C9 at concrete inputs: the empty pattern on a one-byte text. -/
theorem C9_optimized_search_guard_witness :
    (([] : List Nat).length = 0 ∨ ([7] : List Nat).length < ([] : List Nat).length) ∧
    optimized_search [7] [] = 0 :=
  ⟨Or.inl rfl, C9_optimized_search_guard [7] [] (Or.inl rfl)⟩

/-! ### Claim C3: counting sort on a domain-violating input -/

/-- Claim C3 is false of the code (code bug): `optimized_sort` contains no
domain check at all — on the one-element input [40000] the tally loop's very
first access `count[arr[i]]++` indexes the 32768-entry frequency table out
of range (undefined behavior), rather than failing with a DomainError or
falling back to a comparison sort as the contract requires. -/
theorem C3_counting_sort_oob_on_40000 :
    tallyAccessOOB [(40000 : Int)] = true ∧
    optimized_sort_run [(40000 : Int)] = none := by
  exact ⟨rfl, rfl⟩

/-! ### Claim C8: allocation failure is not surfaced before use -/

/-- Claim C8 is false of the code (code bug): the bubble-sort baseline entry
point performs no null check on its malloc result; on a failed allocation
the run reaches a store through the null buffer (the undefined-behavior
outcome) instead of surfacing the failure as a distinct outcome before any
buffer use. (string-search_baseline.c and array-sum_baseline.c mains share
the same defect; array-sum_optimized.c and matrix-multiply_optimized.c do
check.) -/
theorem C8_bubble_main_null_store_on_alloc_failure :
    bsMain none = Except.error UB.nullDeref := rfl

/-! ### Claim C7: unrolled checksum remainder handling -/

/-- Claim C7 is false of the code (code bug): for N = 5 and the all-ones
array, the sort kernel's unrolled checksum is 10 — the final assignment
`checksum = sum1 + sum2 + sum3 + sum4` discards the remainder element's
contribution accumulated into `checksum` — while the plain sequential
reduction is 1+2+3+4+5 = 15. The matrix kernel's unrolled checksum does
include its remainder (adding on top of the lane sum) and agrees with the
sequential reduction Σ C[i] = 5 on the analogous input. -/
theorem C7_sort_checksum_drops_remainder :
    sortChecksumUnrolled [1, 1, 1, 1, 1] = 10 ∧
    sortChecksumSeq [1, 1, 1, 1, 1] = 15 ∧
    sortChecksumUnrolled [1, 1, 1, 1, 1] ≠ sortChecksumSeq [1, 1, 1, 1, 1] ∧
    matChecksumUnrolled [1, 1, 1, 1, 1] = 5 ∧
    matChecksumSeq [1, 1, 1, 1, 1] = 5 := by
  refine ⟨by decide, by decide, by decide, ?_, ?_⟩
  · simp [matChecksumUnrolled, mcVec, List.range']
    norm_num
  · norm_num [matChecksumSeq, List.range_succ]

/-! ### Claim C10: the generator's values lie in the counting-sort domain -/

/-- Values produced by the sort-kernel generator are masked with 0x7fff,
hence lie in [0, 32768). -/
theorem lcgGen_mem_bounds : ∀ (n s : Nat) (x : Int),
    x ∈ lcgGen n s → 0 ≤ x ∧ x < 32768 := by
  intro n
  induction n with
  | zero => intro s x hx; simp [lcgGen] at hx
  | succ k ih =>
    intro s x hx
    simp only [lcgGen, List.mem_cons] at hx
    rcases hx with h | h
    · subst h
      refine ⟨Int.natCast_nonneg _, ?_⟩
      have hb : (lcgStep s >>> 16) &&& 32767 ≤ 32767 := Nat.and_le_right
      exact_mod_cast Nat.lt_succ_of_le hb
    · exact ih (lcgStep s) x h

/-- Claim C10 (confirmed). Every value of the sort kernel's benchmark input
(LCG from seed 12345, each element (seed >> 16) & 0x7fff) lies in
[0, 32768), and consequently no frequency-table access of the tally loop of
optimized_sort is out of the 32768-entry table's range on that input. -/
theorem C10_generator_values_in_domain :
    (sortInputBench.all fun x => decide (0 ≤ x) && decide (x < 32768)) = true ∧
    tallyAccessOOB sortInputBench = false := by
  have h := lcgGen_mem_bounds 10000 12345
  constructor
  · rw [List.all_eq_true]
    intro x hx
    have hb := h x hx
    simp [hb.1, hb.2]
  · rw [tallyAccessOOB, List.any_eq_false]
    intro x hx
    have hb := h x hx
    simp
    omega

/-! ### Claim C2: both sorts produce a non-decreasing permutation -/

/-- A bounded bubble pass permutes its input. -/
theorem passUpTo_perm : ∀ (k : Nat) (l : List Int), (passUpTo k l).Perm l
  | 0, l => by simp [passUpTo]
  | _ + 1, [] => by simp [passUpTo]
  | _ + 1, [a] => by simp [passUpTo]
  | k + 1, a :: b :: rest => by
    show (if b < a then b :: passUpTo k (a :: rest) else a :: passUpTo k (b :: rest)).Perm _
    by_cases h : b < a
    · rw [if_pos h]
      exact ((passUpTo_perm k (a :: rest)).cons b).trans (List.Perm.swap a b rest)
    · rw [if_neg h]
      exact (passUpTo_perm k (b :: rest)).cons a

/-- A bounded bubble pass whose bound stays inside the first block leaves a
trailing block untouched. -/
theorem passUpTo_append : ∀ (k : Nat) (l1 l2 : List Int), k < l1.length →
    passUpTo k (l1 ++ l2) = passUpTo k l1 ++ l2
  | 0, l1, l2, _ => by simp [passUpTo]
  | _ + 1, [], _, h => by simp at h
  | _ + 1, [a], _, h => by simp at h
  | k + 1, a :: b :: t, l2, h => by
    have hk : k < (a :: t).length := by simp at h ⊢; omega
    have hk2 : k < (b :: t).length := by simp at h ⊢; omega
    show (if b < a then b :: passUpTo k (a :: (t ++ l2)) else a :: passUpTo k (b :: (t ++ l2)))
      = passUpTo (k + 1) (a :: b :: t) ++ l2
    by_cases hab : b < a
    · rw [if_pos hab]
      show _ = (if b < a then b :: passUpTo k (a :: t) else a :: passUpTo k (b :: t)) ++ l2
      rw [if_pos hab]
      exact congrArg (fun x => b :: x) (passUpTo_append k (a :: t) l2 hk)
    · rw [if_neg hab]
      show _ = (if b < a then b :: passUpTo k (a :: t) else a :: passUpTo k (b :: t)) ++ l2
      rw [if_neg hab]
      exact congrArg (fun x => a :: x) (passUpTo_append k (b :: t) l2 hk2)

/-- A full bubble pass (bound length - 1) moves a maximum of the list into
the last position. -/
theorem passUpTo_maxLast : ∀ (l : List Int), l ≠ [] →
    ∃ t M, passUpTo (l.length - 1) l = t ++ [M] ∧ ∀ x ∈ l, x ≤ M
  | [], h => absurd rfl h
  | [a], _ => ⟨[], a, by simp [passUpTo], by simp⟩
  | a :: b :: rest, _ => by
    show ∃ t M, passUpTo (rest.length + 1) (a :: b :: rest) = t ++ [M] ∧ _
    by_cases hab : b < a
    · obtain ⟨t, M, heq, hM⟩ := passUpTo_maxLast (a :: rest) (by simp)
      have hl : (a :: rest).length - 1 = rest.length := by simp
      rw [hl] at heq
      refine ⟨b :: t, M, ?_, ?_⟩
      · show (if b < a then b :: passUpTo rest.length (a :: rest)
          else a :: passUpTo rest.length (b :: rest)) = (b :: t) ++ [M]
        rw [if_pos hab, heq]
        rfl
      intro x hx
      have haM : a ≤ M := hM a (by simp)
      rcases List.mem_cons.mp hx with rfl | hx2
      · exact haM
      rcases List.mem_cons.mp hx2 with rfl | hx3
      · exact le_of_lt (lt_of_lt_of_le hab haM)
      · exact hM x (by simp [hx3])
    · obtain ⟨t, M, heq, hM⟩ := passUpTo_maxLast (b :: rest) (by simp)
      have hl : (b :: rest).length - 1 = rest.length := by simp
      rw [hl] at heq
      refine ⟨a :: t, M, ?_, ?_⟩
      · show (if b < a then b :: passUpTo rest.length (a :: rest)
          else a :: passUpTo rest.length (b :: rest)) = (a :: t) ++ [M]
        rw [if_neg hab, heq]
        rfl
      intro x hx
      have hbM : b ≤ M := hM b (by simp)
      rcases List.mem_cons.mp hx with rfl | hx2
      · exact le_trans (not_lt.mp hab) hbM
      · exact hM x hx2
termination_by l _ => l.length

/-- Invariant of the shrinking-pass outer loop: running the passes with
bounds k, k-1, ..., 1 on a block of length k + 1 followed by a sorted block
that dominates it yields a sorted permutation. -/
theorem sortGo_sorted_perm : ∀ (k : Nat) (l1 l2 : List Int),
    l1.length = k + 1 → List.Sorted (· ≤ ·) l2 →
    (∀ x ∈ l1, ∀ y ∈ l2, x ≤ y) →
    List.Sorted (· ≤ ·) (sortGo k (l1 ++ l2)) ∧ (sortGo k (l1 ++ l2)).Perm (l1 ++ l2)
  | 0, l1, l2, hlen, hs2, hdom => by
    obtain ⟨a, rfl⟩ : ∃ a, l1 = [a] := List.length_eq_one.mp (by simpa using hlen)
    rw [sortGo]
    refine ⟨List.sorted_cons.mpr ⟨fun y hy => hdom a (by simp) y hy, hs2⟩, List.Perm.refl _⟩
  | k + 1, l1, l2, hlen, hs2, hdom => by
    rw [sortGo, passUpTo_append (k + 1) l1 l2 (by omega)]
    obtain ⟨t, M, heq, hM⟩ := passUpTo_maxLast l1 (by intro h; rw [h] at hlen; simp at hlen)
    have hl1 : l1.length - 1 = k + 1 := by omega
    rw [hl1] at heq
    have hperm1 : (t ++ [M]).Perm l1 := heq ▸ passUpTo_perm (k + 1) l1
    have hMl1 : M ∈ l1 := hperm1.mem_iff.mp (by simp)
    have htlen : t.length = k + 1 := by
      have := hperm1.length_eq
      simp at this
      omega
    have hsub : ∀ x ∈ t, x ∈ l1 := fun x hx => hperm1.mem_iff.mp (by simp [hx])
    have ih := sortGo_sorted_perm k t (M :: l2) htlen
      (List.sorted_cons.mpr ⟨fun y hy => hdom M hMl1 y hy, hs2⟩)
      (by
        intro x hx y hy
        rcases List.mem_cons.mp hy with rfl | hy2
        · exact hM x (hsub x hx)
        · exact hdom x (hsub x hx) y hy2)
    rw [heq, List.append_assoc, List.singleton_append]
    refine ⟨ih.1, ih.2.trans ?_⟩
    have heq2 : t ++ M :: l2 = (t ++ [M]) ++ l2 := by simp
    rw [heq2]
    exact hperm1.append_right l2

/-- The baseline bubble sort produces a sorted permutation of its input. -/
theorem bubble_sort_sorted_perm (l : List Int) :
    List.Sorted (· ≤ ·) (bubble_sort l) ∧ (bubble_sort l).Perm l := by
  match hl : l with
  | [] => exact ⟨by simp [bubble_sort, sortGo], by simp [bubble_sort, sortGo]⟩
  | a :: l0 =>
    have h := sortGo_sorted_perm ((a :: l0).length - 1) (a :: l0) [] (by simp) List.sorted_nil
      (by intro x _ y hy; simp at hy)
    rw [List.append_nil] at h
    exact h

/-- Count of any value in the counting sort's reconstruction. -/
theorem optSort_count : ∀ (n : Nat) (l : List Int) (x : Int),
    (((List.range n).map fun v =>
      List.replicate (l.count ((v : Nat) : Int)) ((v : Nat) : Int)).flatten).count x =
      if 0 ≤ x ∧ x < (n : Int) then l.count x else 0 := by
  intro n
  induction n with
  | zero =>
    intro l x
    have hneg : ¬(0 ≤ x ∧ x < ((0 : Nat) : Int)) := by
      push_cast
      omega
    rw [if_neg hneg]
    simp
  | succ k ih =>
    intro l x
    rw [List.range_succ, List.map_append, List.flatten_append, List.count_append, ih]
    simp only [List.map_cons, List.map_nil, List.flatten_cons, List.flatten_nil,
      List.append_nil, List.count_replicate]
    by_cases hx : x = ((k : Nat) : Int)
    · subst hx
      have h1 : ¬(0 ≤ ((k : Nat) : Int) ∧ ((k : Nat) : Int) < ((k : Nat) : Int)) := by omega
      have h2 : 0 ≤ ((k : Nat) : Int) ∧ ((k : Nat) : Int) < ((k + 1 : Nat) : Int) := by
        push_cast
        omega
      rw [if_neg h1, if_pos h2]
      simp
    · have hbeq : (((k : Nat) : Int) == x) = false := by
        rw [beq_eq_false_iff_ne]
        exact fun h => hx h.symm
      rw [hbeq]
      simp only [Bool.false_eq_true, if_false, add_zero]
      by_cases h0 : 0 ≤ x ∧ x < ((k : Nat) : Int)
      · have h1 : 0 ≤ x ∧ x < ((k + 1 : Nat) : Int) := by
          push_cast at h0 ⊢
          omega
        rw [if_pos h0, if_pos h1]
      · have h1 : ¬(0 ≤ x ∧ x < ((k + 1 : Nat) : Int)) := by
          push_cast at h0 hx ⊢
          omega
        rw [if_neg h0, if_neg h1]

/-- The counting sort's reconstruction is non-decreasing: blocks of equal
values are emitted in ascending value order. -/
theorem optimized_sort_sorted (l : List Int) :
    List.Sorted (· ≤ ·) (optimized_sort l) := by
  show List.Pairwise _ _
  rw [optimized_sort, List.pairwise_flatten]
  constructor
  · intro li hli
    rw [List.mem_map] at hli
    obtain ⟨v, _, rfl⟩ := hli
    exact List.pairwise_replicate.mpr (Or.inr le_rfl)
  · rw [List.pairwise_map]
    refine (List.pairwise_lt_range 32768).imp ?_
    intro a b hab x hx y hy
    rw [List.eq_of_mem_replicate hx, List.eq_of_mem_replicate hy]
    exact_mod_cast Nat.le_of_lt hab

/-- On inputs within the counting sort's domain, the reconstruction has the
same value counts as the input, hence is a permutation of it. -/
theorem optimized_sort_perm (l : List Int) (h : ∀ x ∈ l, 0 ≤ x ∧ x < 32768) :
    (optimized_sort l).Perm l := by
  rw [List.perm_iff_count]
  intro x
  rw [optimized_sort, optSort_count 32768 l x]
  by_cases hx : 0 ≤ x ∧ x < ((32768 : Nat) : Int)
  · rw [if_pos hx]
  · rw [if_neg hx]
    symm
    rw [List.count_eq_zero]
    intro hmem
    have := h x hmem
    push_cast at hx
    omega

/-- Claim C2 (confirmed). For every array whose values all lie in
[0, 32768), both the baseline exchange sort and the optimized counting sort
leave the array a non-decreasing permutation of the input multiset (the
baseline needs no domain assumption at all). -/
theorem C2_sorts_produce_sorted_permutation (l : List Int)
    (h : ∀ x ∈ l, 0 ≤ x ∧ x < 32768) :
    List.Sorted (· ≤ ·) (bubble_sort l) ∧ (bubble_sort l).Perm l ∧
    List.Sorted (· ≤ ·) (optimized_sort l) ∧ (optimized_sort l).Perm l :=
  ⟨(bubble_sort_sorted_perm l).1, (bubble_sort_sorted_perm l).2,
    optimized_sort_sorted l, optimized_sort_perm l h⟩

/-- Witness for C2 at the concrete input [3, 1, 2]. -/
theorem C2_sorts_produce_sorted_permutation_witness :
    (∀ x ∈ ([3, 1, 2] : List Int), 0 ≤ x ∧ x < 32768) ∧
    (List.Sorted (· ≤ ·) (bubble_sort [3, 1, 2]) ∧ (bubble_sort [3, 1, 2]).Perm [3, 1, 2] ∧
      List.Sorted (· ≤ ·) (optimized_sort [3, 1, 2]) ∧ (optimized_sort [3, 1, 2]).Perm [3, 1, 2]) :=
  ⟨by decide, C2_sorts_produce_sorted_permutation [3, 1, 2] (by decide)⟩

/-! ### Claim C5: primality tests and main loops agree -/

/-- The baseline trial division decides primality. -/
theorem is_prime_iff (n : Nat) : is_prime n = true ↔ Nat.Prime n := by
  rw [is_prime]
  by_cases h2 : n < 2
  · rw [if_pos h2]
    simp
    exact fun hp => absurd hp.two_le (by omega)
  · rw [if_neg h2, List.all_eq_true]
    constructor
    · intro hall
      refine Nat.prime_def_lt.mpr ⟨by omega, ?_⟩
      intro m hmn hmd
      by_contra hm1
      have hm0 : m ≠ 0 := by
        rintro rfl
        have := Nat.eq_zero_of_zero_dvd hmd
        omega
      have hmem : m ∈ List.range' 2 (n - 2) := by
        rw [List.mem_range']
        exact ⟨m - 2, by omega, by omega⟩
      have hne := bne_iff_ne.mp (hall m hmem)
      exact hne (Nat.mod_eq_zero_of_dvd hmd)
    · intro hp i hi
      rw [List.mem_range'] at hi
      obtain ⟨d, hd, rfl⟩ := hi
      rw [bne_iff_ne]
      intro hmod
      have hdvd : (2 + 1 * d) ∣ n := Nat.dvd_of_mod_eq_zero hmod
      have := (Nat.prime_def_lt.mp hp).2 (2 + 1 * d) (by omega) hdvd
      omega

/-- The optimized square-root-bounded odd trial division decides
primality. -/
theorem is_prime_optimized_iff (n : Nat) :
    is_prime_optimized n = true ↔ Nat.Prime n := by
  rw [is_prime_optimized]
  by_cases h2 : n < 2
  · rw [if_pos h2]
    simp
    exact fun hp => absurd hp.two_le (by omega)
  rw [if_neg h2]
  by_cases he : n = 2
  · subst he
    rw [if_pos rfl]
    simp [Nat.prime_two]
  rw [if_neg he]
  by_cases hev : n % 2 = 0
  · rw [if_pos hev]
    simp
    intro hp
    have h2d : 2 ∣ n := Nat.dvd_of_mod_eq_zero hev
    have := hp.eq_one_or_self_of_dvd 2 h2d
    omega
  rw [if_neg hev, List.all_eq_true]
  constructor
  · intro hall
    refine Nat.prime_def_le_sqrt.mpr ⟨by omega, ?_⟩
    intro m hm2 hmsqrt hdvd
    by_cases hme : m % 2 = 0
    · have h2n : (2 : Nat) ∣ n := dvd_trans (Nat.dvd_of_mod_eq_zero hme) hdvd
      exact hev (Nat.mod_eq_zero_of_dvd h2n)
    · have hmem : m ∈ List.range' 3 ((Nat.sqrt n - 1) / 2) 2 := by
        rw [List.mem_range']
        exact ⟨(m - 3) / 2, by omega, by omega⟩
      have hne := bne_iff_ne.mp (hall m hmem)
      exact hne (Nat.mod_eq_zero_of_dvd hdvd)
  · intro hp i hi
    rw [List.mem_range'] at hi
    obtain ⟨d, hd, rfl⟩ := hi
    rw [bne_iff_ne]
    intro hmod
    have hdvd : (3 + 2 * d) ∣ n := Nat.dvd_of_mod_eq_zero hmod
    rcases hp.eq_one_or_self_of_dvd _ hdvd with h1 | hself
    · omega
    · have hle : 3 + 2 * d ≤ Nat.sqrt n := by omega
      have hlt : Nat.sqrt n < n := Nat.sqrt_lt_self (by omega)
      omega

/-- The two primality tests agree on every integer. -/
theorem is_prime_agrees (n : Nat) : is_prime n = is_prime_optimized n := by
  have h1 := is_prime_iff n
  have h2 := is_prime_optimized_iff n
  cases hb : is_prime n <;> cases hc : is_prime_optimized n <;> simp_all

/-- Evens at least 4 fail the baseline primality test. -/
theorem is_prime_even_false (n : Nat) (h : n % 2 = 0) (h4 : 4 ≤ n) :
    is_prime n = false := by
  rw [Bool.eq_false_iff]
  intro hp
  rw [is_prime_iff] at hp
  have := hp.eq_one_or_self_of_dvd 2 (Nat.dvd_of_mod_eq_zero h)
  omega

/-- Characterization of the prime-counting accumulator fold. -/
theorem foldl_primeStep (test : Nat → Bool) (L : List Nat) : ∀ (c s : Nat),
    L.foldl (primeStep test) (c, s) =
      (c + L.countP test, s + (L.filter test).sum) := by
  induction L with
  | nil => intro c s; simp
  | cons a L ih =>
    intro c s
    rw [List.foldl_cons]
    by_cases ha : test a
    · have hstep : primeStep test (c, s) a = (c + 1, s + a) := by
        rw [primeStep, if_pos ha]
      rw [hstep, ih, List.countP_cons, List.filter_cons]
      refine Prod.ext ?_ ?_ <;> simp [ha] <;> omega
    · have hstep : primeStep test (c, s) a = (c, s) := by
        rw [primeStep, if_neg ha]
      rw [hstep, ih, List.countP_cons, List.filter_cons]
      refine Prod.ext ?_ ?_ <;> simp [ha]

/-- The optimized main's stride-4 double-test loop visits exactly the odd
numbers from its start below 100000, in order. -/
theorem primeOptLoop_eq : ∀ (fuel : Nat), ∀ (i : Nat) (acc : Nat × Nat),
    i % 2 = 1 → 100000 ≤ i + 4 * fuel →
    primeOptLoop fuel i acc =
      (List.range' i ((100000 - i + 1) / 2) 2).foldl
        (primeStep is_prime_optimized) acc := by
  intro fuel
  induction fuel with
  | zero =>
    intro i acc hodd hfuel
    have hc : (100000 - i + 1) / 2 = 0 := by omega
    rw [primeOptLoop, hc]
    rfl
  | succ f ih =>
    intro i acc hodd hfuel
    rw [primeOptLoop]
    by_cases hi : i < 100000
    · rw [if_pos hi]
      show primeOptLoop f (i + 4)
          (if i + 2 < 100000 then
            primeStep is_prime_optimized (primeStep is_prime_optimized acc i) (i + 2)
          else primeStep is_prime_optimized acc i) =
        List.foldl (primeStep is_prime_optimized) acc
          (List.range' i ((100000 - i + 1) / 2) 2)
      by_cases hnext : i + 2 < 100000
      · rw [if_pos hnext]
        have hcount : (100000 - i + 1) / 2 = (((100000 - (i + 4) + 1) / 2) + 1) + 1 := by
          omega
        rw [hcount, List.range'_succ, List.range'_succ, List.foldl_cons, List.foldl_cons]
        exact ih (i + 4) _ (by omega) (by omega)
      · rw [if_neg hnext]
        have hcount : (100000 - i + 1) / 2 = 1 := by omega
        rw [hcount, List.range'_succ, List.foldl_cons]
        have h0 : (100000 - (i + 4) + 1) / 2 = 0 := by omega
        have hrec := ih (i + 4) (primeStep is_prime_optimized acc i) (by omega) (by omega)
        rw [h0] at hrec
        simpa using hrec
    · rw [if_neg hi]
      have hc : (100000 - i + 1) / 2 = 0 := by omega
      rw [hc]
      rfl

/-- Filtering the primes out of a unit-stride odd-started scan equals
filtering them out of the stride-2 odd scan: the skipped evens (all at
least 4) are never prime. -/
theorem filter_prime_odds : ∀ (k a : Nat), a % 2 = 1 → 3 ≤ a →
    (List.range' a (2 * k + 1)).filter is_prime =
      (List.range' a (k + 1) 2).filter is_prime := by
  intro k
  induction k with
  | zero => intro a _ _; rfl
  | succ kk ih =>
    intro a hodd h3
    have h1 : List.range' a (2 * (kk + 1) + 1) =
        a :: (a + 1) :: List.range' (a + 1 + 1) (2 * kk + 1) := by
      rw [show 2 * (kk + 1) + 1 = ((2 * kk + 1) + 1) + 1 from by omega,
        List.range'_succ, List.range'_succ]
    have h2 : List.range' a ((kk + 1) + 1) 2 = a :: List.range' (a + 2) (kk + 1) 2 :=
      List.range'_succ _ _ _
    have heven : is_prime (a + 1) = false := is_prime_even_false (a + 1) (by omega) (by omega)
    rw [h1, h2, show a + 1 + 1 = a + 2 from by omega,
      List.filter_cons, List.filter_cons, List.filter_cons, heven]
    simp only [Bool.false_eq_true, if_false]
    rw [ih (a + 2) (by omega) (by omega)]

/-- Claim C5 (confirmed). The baseline and optimized primality tests
classify every integer below 100000 identically (indeed every integer); 0
and 1 are not prime and 2 is prime under both; and the optimized main loop
over odd numbers produces the same (count, sum) pair as the baseline's full
scan. -/
theorem C5_prime_kernels_agree :
    (∀ n, n < 100000 → is_prime n = is_prime_optimized n) ∧
    is_prime 0 = false ∧ is_prime 1 = false ∧ is_prime 2 = true ∧
    is_prime_optimized 0 = false ∧ is_prime_optimized 1 = false ∧
    is_prime_optimized 2 = true ∧
    prime_optimized_main = prime_baseline_main := by
  refine ⟨fun n _ => is_prime_agrees n, by decide, by decide, by decide,
    by decide, by decide, by decide, ?_⟩
  have hopt : prime_optimized_main =
      (List.range' 3 49999 2).foldl (primeStep is_prime_optimized) (1, 2) := by
    rw [prime_optimized_main, primeOptLoop_eq 25001 3 (1, 2) (by omega) (by omega)]
  have htest : is_prime_optimized = is_prime := funext fun n => (is_prime_agrees n).symm
  have hbase : prime_baseline_main =
      (List.range' 3 99997).foldl (primeStep is_prime) (1, 2) := by
    rw [prime_baseline_main]
    have h99998 : (99998 : Nat) = 99997 + 1 := by omega
    rw [h99998, List.range'_succ, List.foldl_cons]
    have hstep : primeStep is_prime (0, 0) 2 = (1, 2) := by
      rw [primeStep, if_pos (by decide)]
    rw [hstep]
  have hf2 : (List.range' 3 99997).filter is_prime =
      (List.range' 3 49999 2).filter is_prime := by
    have hraw := filter_prime_odds 49998 3 (by omega) (by omega)
    norm_num at hraw
    exact hraw
  rw [hopt, htest, hbase, foldl_primeStep, foldl_primeStep,
    List.countP_eq_length_filter, List.countP_eq_length_filter, hf2]

/-- Witness for C5 at the concrete input 97. -/
theorem C5_prime_kernels_agree_witness :
    97 < 100000 ∧ is_prime 97 = is_prime_optimized 97 :=
  ⟨by decide, C5_prime_kernels_agree.1 97 (by decide)⟩

/-! ### Claim C1: optimized search counts the same matches as the naive scan -/

/-- Unfolding one step of the table-building fold. -/
theorem bcFold_succ (p : List Nat) (k c : Nat) :
    bcFold p (k + 1) c =
      if c = p.getD k 0 then p.length - 1 - k else bcFold p k c := by
  rw [bcFold, bcFold, List.range_succ, List.foldl_append, List.foldl_cons, List.foldl_nil]

/-- Every entry of a partial bad-character table lies in [1, m]. -/
theorem bcFold_pos (p : List Nat) (hp : 1 ≤ p.length) :
    ∀ k, k ≤ p.length - 1 → ∀ c, 1 ≤ bcFold p k c ∧ bcFold p k c ≤ p.length := by
  intro k
  induction k with
  | zero =>
    intro _ c
    exact ⟨hp, Nat.le_refl _⟩
  | succ kk ih =>
    intro hk c
    rw [bcFold_succ]
    by_cases hc : c = p.getD kk 0
    · rw [if_pos hc]
      omega
    · rw [if_neg hc]
      exact ih (by omega) c

/-- Shift-table property: if byte c occurs in the pattern at an index j
processed so far, the table's shift for c is at most m - 1 - j, since the
entry was written there or at a later index. -/
theorem bcFold_shift (p : List Nat) :
    ∀ k, ∀ c j, j < k → p.getD j 0 = c → bcFold p k c ≤ p.length - 1 - j := by
  intro k
  induction k with
  | zero => intro c j hj _; omega
  | succ kk ih =>
    intro c j hj hpj
    rw [bcFold_succ]
    by_cases hc : c = p.getD kk 0
    · rw [if_pos hc]
      omega
    · rw [if_neg hc]
      rcases Nat.lt_succ_iff_lt_or_eq.mp hj with hlt | rfl
      · exact ih c j hlt hpj
      · exact absurd hpj.symm hc

/-- The full bad-character table is the fold over indices 0..m-2. -/
theorem buildBC_eq_bcFold (p : List Nat) : buildBC p = bcFold p (p.length - 1) := rfl

/-- Every shift of the bad-character table lies in [1, m]. -/
theorem buildBC_pos (p : List Nat) (hp : 1 ≤ p.length) (c : Nat) :
    1 ≤ buildBC p c ∧ buildBC p c ≤ p.length := by
  rw [buildBC_eq_bcFold]
  exact bcFold_pos p hp (p.length - 1) (Nat.le_refl _) c

/-- Shift property of the full table. -/
theorem buildBC_shift (p : List Nat) (c j : Nat) (hj : j < p.length - 1)
    (hpj : p.getD j 0 = c) : buildBC p c ≤ p.length - 1 - j := by
  rw [buildBC_eq_bcFold]
  exact bcFold_shift p (p.length - 1) c j hj hpj

/-- The forward window check succeeds exactly when all m window bytes agree
with the pattern. -/
theorem fwdCheck_true_iff (t p : List Nat) (i : Nat) :
    fwdCheck t p i = true ↔ ∀ j, j < p.length → t.getD (i + j) 0 = p.getD j 0 := by
  rw [fwdCheck, List.all_eq_true]
  constructor
  · intro h j hj
    have := h j (List.mem_range.mpr hj)
    exact beq_iff_eq.mp (by simpa using this)
  · intro h j hj
    simp only [beq_iff_eq]
    exact h j (List.mem_range.mp hj)

/-- The descending comparison of the scalar branch checks the same bytes. -/
theorem bwdGo_true_iff (t p : List Nat) (i : Nat) :
    ∀ k, bwdGo t p i k = true ↔ ∀ j, j < k → t.getD (i + j) 0 = p.getD j 0 := by
  intro k
  induction k with
  | zero => simp [bwdGo]
  | succ kk ih =>
    rw [bwdGo, Bool.and_eq_true, ih]
    constructor
    · rintro ⟨h1, h2⟩ j hj
      rcases Nat.lt_succ_iff_lt_or_eq.mp hj with hlt | rfl
      · exact h2 j hlt
      · exact (beq_iff_eq.mp h1).symm
    · intro h
      exact ⟨beq_iff_eq.mpr (h kk (by omega)).symm, fun j hj => h j (by omega)⟩

/-- The scalar branch's window check agrees with the forward check. -/
theorem bwdCheck_eq_fwdCheck (t p : List Nat) (i : Nat) :
    bwdCheck t p i = fwdCheck t p i := by
  have h1 := bwdGo_true_iff t p i p.length
  have h2 := fwdCheck_true_iff t p i
  rw [bwdCheck]
  cases hb : bwdGo t p i p.length <;> cases hf : fwdCheck t p i <;> simp_all

/-- Skip safety of the Horspool shift: no window strictly between the
current position and the shifted one can match, because a match there would
place the current window's last text byte at a pattern index that the table
already accounts for. -/
theorem fwdCheck_false_of_shift (t p : List Nat) (i d : Nat) (hm : 1 ≤ p.length)
    (hd1 : 1 ≤ d) (hd2 : d < buildBC p (t.getD (i + p.length - 1) 0)) :
    fwdCheck t p (i + d) = false := by
  have hbc := buildBC_pos p hm (t.getD (i + p.length - 1) 0)
  rw [Bool.eq_false_iff]
  intro htrue
  rw [fwdCheck_true_iff] at htrue
  have hdm : d ≤ p.length - 1 := by omega
  have hj : p.length - 1 - d < p.length := by omega
  have hbyte := htrue (p.length - 1 - d) hj
  have hidx : i + d + (p.length - 1 - d) = i + p.length - 1 := by omega
  rw [hidx] at hbyte
  have hshift := buildBC_shift p (t.getD (i + p.length - 1) 0) (p.length - 1 - d)
    (by omega) hbyte.symm
  omega

/-- Dropping a non-matching position from the remaining-window count. -/
theorem cnt_step (t p : List Nat) (q : Nat)
    (h : q ≤ t.length - p.length → fwdCheck t p q = false) :
    cnt t p q = cnt t p (q + 1) := by
  by_cases hq : q ≤ t.length - p.length
  · have hlen : t.length - p.length + 1 - q = (t.length - p.length + 1 - (q + 1)) + 1 := by
      omega
    rw [cnt, cnt, hlen, List.range'_succ, List.countP_cons, h hq]
    simp
  · have h1 : t.length - p.length + 1 - q = 0 := by omega
    have h2 : t.length - p.length + 1 - (q + 1) = 0 := by omega
    rw [cnt, cnt, h1, h2]
    rfl

/-- Skipping any number of non-matching positions preserves the count. -/
theorem cnt_skip (t p : List Nat) : ∀ (s q : Nat),
    (∀ d, d < s → (q + d ≤ t.length - p.length → fwdCheck t p (q + d) = false)) →
    cnt t p q = cnt t p (q + s) := by
  intro s
  induction s with
  | zero => intro q _; rfl
  | succ ss ih =>
    intro q h
    have h0 : q ≤ t.length - p.length → fwdCheck t p q = false := by
      have := h 0 (by omega)
      simpa using this
    rw [cnt_step t p q h0]
    have hrest : ∀ d, d < ss →
        ((q + 1) + d ≤ t.length - p.length → fwdCheck t p ((q + 1) + d) = false) := by
      intro d hd
      have heq : (q + 1) + d = q + (d + 1) := by omega
      rw [heq]
      exact h (d + 1) (by omega)
    have := ih (q + 1) hrest
    rw [show q + (ss + 1) = (q + 1) + ss from by omega]
    exact this

/-- The Horspool scan loop, run with enough fuel and any window check that
agrees with the forward check, returns exactly the number of matching
windows at or after its start position. -/
theorem hLoop_eq_cnt (t p : List Nat) (check : Nat → Bool)
    (hck : ∀ i, check i = fwdCheck t p i) (hm : 1 ≤ p.length) :
    ∀ (fuel i : Nat), t.length - p.length + 1 ≤ fuel + i →
      hLoop t p (buildBC p) check fuel i = cnt t p i := by
  intro fuel
  induction fuel with
  | zero =>
    intro i hfi
    have hz : t.length - p.length + 1 - i = 0 := by omega
    rw [hLoop, cnt, hz]
    rfl
  | succ f ih =>
    intro i hfi
    rw [hLoop]
    by_cases hi : i ≤ t.length - p.length
    · rw [if_pos hi]
      by_cases hchk : check i = true
      · rw [if_pos hchk, ih (i + 1) (by omega)]
        have hlen : t.length - p.length + 1 - i =
            (t.length - p.length + 1 - (i + 1)) + 1 := by omega
        rw [cnt, cnt, hlen, List.range'_succ, List.countP_cons]
        have hfw : fwdCheck t p i = true := by rw [← hck]; exact hchk
        rw [hfw]
        simp [Nat.add_comm]
      · rw [if_neg hchk]
        have hbc := buildBC_pos p hm (t.getD (i + p.length - 1) 0)
        rw [ih (i + buildBC p (t.getD (i + p.length - 1) 0)) (by omega)]
        refine (cnt_skip t p (buildBC p (t.getD (i + p.length - 1) 0)) i ?_).symm
        intro d hd _
        rcases Nat.eq_zero_or_pos d with rfl | hd1
        · have hfw : fwdCheck t p i = false := by
            rw [← hck]
            exact Bool.eq_false_iff.mpr hchk
          simpa using hfw
        · exact fwdCheck_false_of_shift t p i d hm hd1 hd
    · rw [if_neg hi]
      have hz : t.length - p.length + 1 - i = 0 := by omega
      rw [cnt, hz]
      rfl

/-- Claim C1 (corrected). For every text and every nonempty pattern, the
optimized Boyer-Moore-Horspool search (either branch) returns exactly the
naive scan's overlapping-match count. (For the empty pattern the two differ:
see the counterexample.) -/
theorem C1_search_counts_agree (t p : List Nat) (hp : p ≠ []) :
    optimized_search t p = naive_search t p := by
  have hm : 1 ≤ p.length := List.length_pos.mpr hp
  rw [optimized_search, naive_search]
  by_cases hn : t.length < p.length
  · rw [if_pos (Or.inr hn), if_pos hn]
  · rw [if_neg (by push_neg; exact ⟨by omega, by omega⟩), if_neg hn]
    have hcnt0 : cnt t p 0 =
        (List.range (t.length - p.length + 1)).countP fun i => fwdCheck t p i := by
      rw [cnt, List.range_eq_range', Nat.sub_zero]
    by_cases h16 : p.length ≤ 16
    · rw [if_pos h16,
        hLoop_eq_cnt t p (fun i => simdCheck t p i) (fun i => rfl) hm
          (t.length + 1) 0 (by omega), hcnt0]
    · rw [if_neg h16,
        hLoop_eq_cnt t p (fun i => bwdCheck t p i)
          (fun i => bwdCheck_eq_fwdCheck t p i) hm
          (t.length + 1) 0 (by omega), hcnt0]

/-- Counterexample to claim C1 as stated for all pairs: on the empty text
and empty pattern the naive scan counts one (empty) match at position 0,
while the optimized search's guard returns 0. -/
theorem C1_empty_pattern_counterexample :
    naive_search [] [] = 1 ∧ optimized_search [] [] = 0 ∧ (1 : Nat) ≠ 0 := by
  refine ⟨?_, ?_, ?_⟩ <;> decide

/-- Witness for the corrected C1 at a concrete text and pattern. -/
theorem C1_search_counts_agree_witness :
    ([1] : List Nat) ≠ [] ∧ optimized_search [1, 2, 1] [1] = naive_search [1, 2, 1] [1] :=
  ⟨by decide, C1_search_counts_agree [1, 2, 1] [1] (by decide)⟩

/-! ### Claim C4: optimized matrix multiply equals the baseline product -/

/-- Effect of the four-wide vector loop on the output row: every cell of the
row between the start column and the exit column gains `av * b` at the
matching column of B's row; the exit column is within 3 of n. -/
theorem mmVecLoop_spec (av : ℚ) (b : Nat → ℚ) (bi ci n : Nat) :
    ∀ (fuel j : Nat) (c : Nat → ℚ), j ≤ n → n ≤ fuel * 4 + j →
      j ≤ (mmVecLoop av b bi ci n fuel j c).2 ∧
      (mmVecLoop av b bi ci n fuel j c).2 ≤ n ∧
      n < (mmVecLoop av b bi ci n fuel j c).2 + 4 ∧
      ∀ x, (mmVecLoop av b bi ci n fuel j c).1 x =
        if ci + j ≤ x ∧ x < ci + (mmVecLoop av b bi ci n fuel j c).2
        then c x + av * b (bi + (x - ci)) else c x := by
  intro fuel
  induction fuel with
  | zero =>
    intro j c hj hn
    rw [mmVecLoop]
    refine ⟨Nat.le_refl j, hj, by omega, ?_⟩
    intro x
    rw [if_neg (by omega)]
  | succ f ih =>
    intro j c hj hn
    rw [mmVecLoop]
    by_cases h4 : j + 4 ≤ n
    · rw [if_pos h4]
      have hc4 : ∀ y,
          (accum (accum (accum (accum c
            (ci + j) (av * b (bi + j)))
            (ci + j + 1) (av * b (bi + j + 1)))
            (ci + j + 2) (av * b (bi + j + 2)))
            (ci + j + 3) (av * b (bi + j + 3))) y =
          if ci + j ≤ y ∧ y < ci + j + 4 then c y + av * b (bi + (y - ci)) else c y := by
        intro y
        simp only [accum]
        by_cases e3 : y = ci + j + 3
        · subst e3
          rw [if_pos rfl, if_neg (by omega), if_neg (by omega), if_neg (by omega),
            if_pos (by omega), show bi + (ci + j + 3 - ci) = bi + j + 3 from by omega]
        by_cases e2 : y = ci + j + 2
        · subst e2
          rw [if_neg (by omega), if_pos rfl, if_neg (by omega), if_neg (by omega),
            if_pos (by omega), show bi + (ci + j + 2 - ci) = bi + j + 2 from by omega]
        by_cases e1 : y = ci + j + 1
        · subst e1
          rw [if_neg (by omega), if_neg (by omega), if_pos rfl, if_neg (by omega),
            if_pos (by omega), show bi + (ci + j + 1 - ci) = bi + j + 1 from by omega]
        by_cases e0 : y = ci + j
        · subst e0
          rw [if_neg (by omega), if_neg (by omega), if_neg (by omega), if_pos rfl,
            if_pos (by omega), show bi + (ci + j - ci) = bi + j from by omega]
        · rw [if_neg e3, if_neg e2, if_neg e1, if_neg e0, if_neg (by omega)]
      obtain ⟨h1, h2, h3, h5⟩ := ih (j + 4) _ h4 (by omega)
      refine ⟨by omega, h2, h3, ?_⟩
      intro x
      rw [h5 x, hc4 x]
      split_ifs <;> first | rfl | omega
    · rw [if_neg h4]
      refine ⟨Nat.le_refl j, hj, by omega, ?_⟩
      intro x
      rw [if_neg (by omega)]

/-- Effect of the scalar remainder loop: the rest of the row, from the
vector loop's exit column to n, gains the same per-column contribution. -/
theorem mmRemLoop_spec (av : ℚ) (b : Nat → ℚ) (bi ci n : Nat) :
    ∀ (fuel j : Nat) (c : Nat → ℚ), n ≤ fuel + j →
      ∀ x, mmRemLoop av b bi ci n fuel j c x =
        if ci + j ≤ x ∧ x < ci + n then c x + av * b (bi + (x - ci)) else c x := by
  intro fuel
  induction fuel with
  | zero =>
    intro j c hn x
    rw [mmRemLoop, if_neg (by omega)]
  | succ f ih =>
    intro j c hn x
    rw [mmRemLoop]
    by_cases hjn : j < n
    · rw [if_pos hjn, ih (j + 1) _ (by omega) x]
      simp only [accum]
      by_cases e0 : x = ci + j
      · subst e0
        rw [if_neg (by omega), if_pos rfl,
          show bi + (ci + j - ci) = bi + j from by omega, if_pos (by omega)]
      · rw [if_neg e0]
        split_ifs <;> first | rfl | omega
    · rw [if_neg hjn, if_neg (by omega)]

/-- Effect of one (i, k) inner iteration: row i of the output gains
`A[i,k] * B[k,·]` pointwise; all other cells are unchanged. -/
theorem mmInner_spec (a b : Nat → ℚ) (n i k : Nat) (c : Nat → ℚ) (x : Nat) :
    mmInner a b n i k c x =
      if i * n ≤ x ∧ x < i * n + n
      then c x + a (i * n + k) * b (k * n + (x - i * n)) else c x := by
  obtain ⟨h1, h2, h3, h5⟩ :=
    mmVecLoop_spec (a (i * n + k)) b (k * n) (i * n) n n 0 c (Nat.zero_le n) (by omega)
  show mmRemLoop (a (i * n + k)) b (k * n) (i * n) n n
      (mmVecLoop (a (i * n + k)) b (k * n) (i * n) n n 0 c).2
      (mmVecLoop (a (i * n + k)) b (k * n) (i * n) n n 0 c).1 x = _
  rw [mmRemLoop_spec (a (i * n + k)) b (k * n) (i * n) n n _ _ (by omega) x, h5 x]
  split_ifs <;> first | rfl | omega

/-- Effect of the full k-loop on a cell of row i: the cell accumulates the
dot product of A's row entries with B's column entries over the processed
k values. -/
theorem mmKFold_spec (a b : Nat → ℚ) (n i : Nat) :
    ∀ (ks : List Nat) (c : Nat → ℚ) (x : Nat),
      (ks.foldl (fun c k => mmInner a b n i k c) c) x =
        if i * n ≤ x ∧ x < i * n + n
        then c x + (ks.map fun k => a (i * n + k) * b (k * n + (x - i * n))).sum
        else c x := by
  intro ks
  induction ks with
  | nil =>
    intro c x
    rw [List.foldl_nil, List.map_nil, List.sum_nil]
    split_ifs <;> simp
  | cons k ks ih =>
    intro c x
    rw [List.foldl_cons, ih (mmInner a b n i k c) x, mmInner_spec a b n i k c x,
      List.map_cons, List.sum_cons]
    split_ifs
    · ring
    · rfl

/-- Output rows have pairwise disjoint index ranges. -/
theorem row_disjoint (n i0 x : Nat) (hx1 : i0 * n ≤ x) (hx2 : x < i0 * n + n) :
    ∀ i : Nat, i ≠ i0 → ¬(i * n ≤ x ∧ x < i * n + n) := by
  intro i hne hc
  rcases Nat.lt_or_ge i i0 with hlt | hge
  · have hm : (i + 1) * n ≤ i0 * n := Nat.mul_le_mul_right n (by omega)
    rw [Nat.succ_mul] at hm
    omega
  · have hgt : i0 < i := by omega
    have hm : (i0 + 1) * n ≤ i * n := Nat.mul_le_mul_right n (by omega)
    rw [Nat.succ_mul] at hm
    omega

/-- Effect of the outer i-loop on a cell of row i0: only the i0 iteration
touches it, contributing the full dot product. -/
theorem mmIFold_spec (a b : Nat → ℚ) (n : Nat) :
    ∀ (is0 : List Nat), is0.Nodup → ∀ (c : Nat → ℚ) (i0 x : Nat),
      i0 * n ≤ x → x < i0 * n + n →
      (is0.foldl
        (fun c i => (List.range n).foldl (fun c k => mmInner a b n i k c) c) c) x =
        c x + (if i0 ∈ is0
          then ((List.range n).map fun k => a (i0 * n + k) * b (k * n + (x - i0 * n))).sum
          else 0) := by
  intro is0
  induction is0 with
  | nil =>
    intro _ c i0 x _ _
    simp
  | cons i rest ih =>
    intro hnd c i0 x hx1 hx2
    have hnd2 := (List.nodup_cons.mp hnd).2
    have hni := (List.nodup_cons.mp hnd).1
    rw [List.foldl_cons]
    by_cases hi : i = i0
    · subst hi
      rw [ih hnd2 _ i x hx1 hx2, if_neg hni, mmKFold_spec a b n i (List.range n) c x,
        if_pos ⟨hx1, hx2⟩, if_pos (List.mem_cons_self i rest)]
      ring
    · rw [ih hnd2 _ i0 x hx1 hx2, mmKFold_spec a b n i (List.range n) c x,
        if_neg (row_disjoint n i0 x hx1 hx2 i hi)]
      by_cases hm : i0 ∈ rest
      · rw [if_pos hm, if_pos (List.mem_cons_of_mem i hm)]
      · have hnc : i0 ∉ i :: rest := by
          rw [List.mem_cons]
          rintro (h | h)
          · exact hi h.symm
          · exact hm h
        rw [if_neg hm, if_neg hnc]

/-- Sum bridge: the baseline's scalar accumulation is the list sum of the
products. -/
theorem foldl_add_map (f : Nat → ℚ) :
    ∀ (L : List Nat) (s : ℚ), L.foldl (fun s k => s + f k) s = s + (L.map f).sum := by
  intro L
  induction L with
  | nil => intro s; simp
  | cons a L ih =>
    intro s
    rw [List.foldl_cons, ih (s + f a), List.map_cons, List.sum_cons]
    ring

/-- Claim C4 (confirmed over exact arithmetic). For every pair of 256 by 256
row-major matrices, every cell of the optimized i-k-j vectorized multiply's
output equals the baseline i-j-k triple-loop product at that cell, which is
the mathematically exact triple product; floating rounding itself is outside
the model. -/
theorem C4_matmul_cells_agree (a b c0 : Nat → ℚ) (i j : Nat)
    (hi : i < 256) (hj : j < 256) :
    matrix_multiply_optimized 256 a b c0 (i * 256 + j) =
      matrix_multiply_baseline 256 a b i j ∧
    matrix_multiply_baseline 256 a b i j =
      ((List.range 256).map fun k => a (i * 256 + k) * b (k * 256 + j)).sum := by
  have hbase : matrix_multiply_baseline 256 a b i j =
      ((List.range 256).map fun k => a (i * 256 + k) * b (k * 256 + j)).sum := by
    rw [matrix_multiply_baseline, foldl_add_map (fun k => a (i * 256 + k) * b (k * 256 + j))
      (List.range 256) 0, zero_add]
  refine ⟨?_, hbase⟩
  rw [matrix_multiply_optimized]
  have hx1 : i * 256 ≤ i * 256 + j := by omega
  have hx2 : i * 256 + j < i * 256 + 256 := by omega
  rw [mmIFold_spec a b 256 (List.range 256) (List.nodup_range 256) _ i (i * 256 + j) hx1 hx2,
    if_pos (List.mem_range.mpr hi)]
  show (if i * 256 + j < 256 * 256 then (0 : ℚ) else c0 (i * 256 + j)) + _ = _
  rw [if_pos (by omega), zero_add, hbase,
    show i * 256 + j - i * 256 = j from by omega]

/-- Witness for C4 at concrete matrices and cell (0, 0). -/
theorem C4_matmul_cells_agree_witness :
    (0 : Nat) < 256 ∧
    (matrix_multiply_optimized 256 (fun _ => 1) (fun _ => 1) (fun _ => 0) (0 * 256 + 0) =
      matrix_multiply_baseline 256 (fun _ => 1) (fun _ => 1) 0 0 ∧
    matrix_multiply_baseline 256 (fun _ => 1) (fun _ => 1) 0 0 =
      ((List.range 256).map fun k =>
        (fun _ : Nat => (1 : ℚ)) (0 * 256 + k) * (fun _ : Nat => (1 : ℚ)) (k * 256 + 0)).sum) :=
  ⟨by decide,
    C4_matmul_cells_agree (fun _ => 1) (fun _ => 1) (fun _ => 0) 0 0 (by decide) (by decide)⟩

end OptiBench
